import Mathlib

/-!
Verification development for the ShopFlow idempotent batch loader
(`src/etl/load_to_db.py`): a shallow embedding of the CSV reading,
the upsert-based reconciliation engine, the chunked batch submitter
and the audit-logged load orchestrator, together with theorems about
the specification's claims.

Modelling conventions:
* CSV values are `String`s; a value absent from a short row is `none`
  (Python's `csv.DictReader` `restval=None`), so a cell is `Option String`.
* `datetime.utcnow()` is modelled by an ambient sequence
  `times : Nat → Nat` together with a call counter (`clock`): the k-th
  call within `main` returns `times k`.  Monotonicity of real time is an
  explicit hypothesis where a claim needs it.
* The external database schema of the per-dataset tables is not part of
  the repository; whether a single-row INSERT statement is accepted by
  the database (type coercion of the text values, NOT NULL / key
  constraints) is therefore a parameter `rowOk : String → Record → Bool`
  (table name and the record's cells).  A rejected statement aborts the
  enclosing transaction, exactly as in Postgres.
* Transactions: mutations are applied to a pending copy of the database
  state; `commit` publishes it; an aborted transaction makes every
  further statement raise (psycopg `InFailedSqlTransaction`) and the
  connection context manager rolls back on exit.
-/

/-- One data cell as submitted to the database: `none` is SQL NULL
(Python `None`), `some s` is the text value read from the CSV. -/
abbrev Cell := Option String

/-- The per-column values of one record, in the order of the dataset's
declared column list (exactly the `vals` list built by `load_table`,
without the trailing `_ingested_at`). -/
abbrev Record := List Cell

/-- A durable row of a per-dataset table: the declared columns' values
plus the `_ingested_at` timestamp appended by the loader. -/
structure TableRow where
  data : Record
  ingestedAt : Nat
deriving DecidableEq, Repr

/-- A per-dataset durable table, as a list of rows (the loader's
invariant is that primary-key values are duplicate-free). -/
abbrev Table := List TableRow

/-- One parsed CSV input file: the header line and the raw data rows. -/
structure CsvFile where
  header : List String
  rows : List (List String)
deriving DecidableEq, Repr

/-- Python-dict lookup for a `csv.DictReader` row, scanning the header
from position `i`: a later duplicate header name overrides an earlier
one (dict insertion overwrites), a row shorter than the header yields
the `restval` default `none`, and a name absent from the header yields
`none` at the outer level (a `KeyError` in Python). -/
def dictGetFrom (raw : List String) (c : String) (i : Nat) : List String → Option Cell
  | [] => none
  | h :: rest =>
    match dictGetFrom raw c (i + 1) rest with
    | some v => some v
    | none => if h = c then some (raw.get? i) else none

/-- `row[c]` for a `csv.DictReader` row with header `header` and raw
values `raw`: `none` models the `KeyError`. -/
def dictGet (header raw : List String) (c : String) : Option Cell :=
  dictGetFrom raw c 0 header

/-- `[row[c] for c in cols]` from `load_table`: the first column missing
from the record raises `KeyError` (carried as the column name). -/
def rowVals (header raw : List String) : List String → Except String Record
  | [] => Except.ok []
  | c :: cs =>
    match dictGet header raw c with
    | none => Except.error c
    | some v =>
      match rowVals header raw cs with
      | Except.error e => Except.error e
      | Except.ok vs => Except.ok (v :: vs)

/-- `cols.index(pk)`: position of the primary-key column in the declared
column list (the conflict-key position inside a `Record`). -/
def colIndex (c : String) : List String → Nat
  | [] => 0
  | x :: xs => if x = c then 0 else colIndex c xs + 1

/-- The conflict-key value of a stored row: the cell at the primary-key
column's position. -/
def rowKey (pkIdx : Nat) (r : TableRow) : Option Cell :=
  r.data.get? pkIdx

/-- Effect of one `INSERT … ON CONFLICT (pk) DO UPDATE SET …` statement
produced by `upsert_sql`: conflict detection is by the unique index on
the primary-key column, so at most one existing row can conflict; that
row is overwritten wholesale (every non-key column and `_ingested_at`
are set from EXCLUDED, and the key is unchanged), and with no conflict
the new row is appended. -/
def upsertRow (pkIdx : Nat) : Table → TableRow → Table
  | [], r => [r]
  | row :: rest, r =>
    if rowKey pkIdx row = rowKey pkIdx r then r :: rest
    else row :: upsertRow pkIdx rest r

/-- Sequential application of the reconciliation operation to a list of
records (the semantics of submitting them one statement at a time). -/
def applyRecs (pkIdx : Nat) (tbl : Table) (rs : List TableRow) : Table :=
  rs.foldl (upsertRow pkIdx) tbl

/-- `cur.executemany(sql, batch)`: the upsert statement runs once per
batch entry, in order; a statement rejected by the database (external
schema: type coercion or constraint failure, abstracted by `rowOk`)
raises and aborts the transaction. -/
def execMany (rowOk : Record → Bool) (pkIdx : Nat) : Table → List TableRow → Except Unit Table
  | tbl, [] => Except.ok tbl
  | tbl, r :: rs =>
    if rowOk r.data then execMany rowOk pkIdx (upsertRow pkIdx tbl r) rs
    else Except.error ()

/-- Outcome of `load_table` for one dataset: success with the submitted
row count and the number of storage round-trips (`executemany` calls),
a Python-side `KeyError` for a missing column (the transaction stays
usable), or a database error that aborted the transaction. -/
inductive LoadOut
  | ok (submitted trips : Nat)
  | keyErr (c : String)
  | sqlErr
deriving DecidableEq, Repr

/-- The row-reading loop of `load_table`: for each raw row build
`vals = [row[c] for c in cols] + [utcnow()]`, append to the batch, and
flush with `executemany` once the batch reaches the chunk size; a final
partial batch is flushed after the loop.  State threaded through:
current table contents, pending batch, submitted count, `utcnow` call
counter, and round-trip count. -/
def loadTableGo (rowOk : Record → Bool) (pkIdx chunk : Nat) (header cols : List String)
    (times : Nat → Nat) :
    List (List String) → Table → List TableRow → Nat → Nat → Nat → LoadOut × Table × Nat
  | [], tbl, batch, submitted, clock, trips =>
    if batch.isEmpty then (LoadOut.ok submitted trips, tbl, clock)
    else
      match execMany rowOk pkIdx tbl batch with
      | Except.ok tbl1 => (LoadOut.ok (submitted + batch.length) (trips + 1), tbl1, clock)
      | Except.error _ => (LoadOut.sqlErr, tbl, clock)
  | raw :: rest, tbl, batch, submitted, clock, trips =>
    match rowVals header raw cols with
    | Except.error c => (LoadOut.keyErr c, tbl, clock)
    | Except.ok vals =>
      let batch1 := batch ++ [⟨vals, times clock⟩]
      if chunk ≤ batch1.length then
        match execMany rowOk pkIdx tbl batch1 with
        | Except.ok tbl1 =>
          loadTableGo rowOk pkIdx chunk header cols times rest tbl1 []
            (submitted + batch1.length) (clock + 1) (trips + 1)
        | Except.error _ => (LoadOut.sqlErr, tbl, clock + 1)
      else
        loadTableGo rowOk pkIdx chunk header cols times rest tbl batch1 submitted (clock + 1) trips

/-- `load_table(cur, table, csv_path, cols, pk)` on one dataset's file,
generalized over the chunk size (the source fixes it to 1000). -/
def load_table (rowOk : Record → Bool) (chunk : Nat) (file : CsvFile) (cols : List String)
    (pk : String) (times : Nat → Nat) (tbl : Table) (clock : Nat) : LoadOut × Table × Nat :=
  loadTableGo rowOk (colIndex pk cols) chunk file.header cols times file.rows tbl [] 0 clock 0

/-- The records a fully successful pass over a file's rows constructs,
with their per-record ingestion timestamps: the i-th row read gets the
timestamp of the (clock + i)-th `utcnow` call; `none` if some row has a
column missing from the header. -/
def parseAll (header cols : List String) (times : Nat → Nat) (clock : Nat) :
    List (List String) → Option (List TableRow)
  | [] => some []
  | raw :: rest =>
    match rowVals header raw cols with
    | Except.error _ => none
    | Except.ok vals =>
      match parseAll header cols times (clock + 1) rest with
      | none => none
      | some l => some (⟨vals, times clock⟩ :: l)

/-- Number of `executemany` round-trips for `n` records at chunk size
`c`: one per full chunk plus one for a final partial chunk. -/
def padTrips (n c : Nat) : Nat :=
  n / c + (if n % c = 0 then 0 else 1)

/-- The `details` JSONB payload of an audit row: `{}` at begin,
per-dataset `rows_submitted` statistics on success, or the error
description on failure. -/
inductive Details
  | empty
  | stats (l : List (String × Nat))
  | err (msg : String)
deriving DecidableEq, Repr

/-- One row of `public.load_audit` (batch identifiers abstracted to
`Nat`, `load_date` likewise). -/
structure AuditRow where
  batchId : Nat
  loadDate : Nat
  startedAt : Nat
  finishedAt : Option Nat
  status : String
  details : Details
deriving DecidableEq, Repr

/-- The durable database state: the audit ledger and the three
per-dataset tables targeted by `FILES`. -/
structure DB where
  audit : List AuditRow
  customers : Table
  products : Table
  transactions : Table
deriving DecidableEq, Repr

def DB.getTable (db : DB) (t : String) : Table :=
  if t = "public.customers" then db.customers
  else if t = "public.products" then db.products
  else if t = "public.transactions" then db.transactions
  else []

def DB.setTable (db : DB) (t : String) (tbl : Table) : DB :=
  if t = "public.customers" then { db with customers := tbl }
  else if t = "public.products" then { db with products := tbl }
  else if t = "public.transactions" then { db with transactions := tbl }
  else db

/-- One entry of the `FILES` configuration: target table, source file
name, declared columns, primary-key column. -/
structure FileCfg where
  table : String
  filename : String
  cols : List String
  pk : String
deriving DecidableEq, Repr

/-- The `FILES` dict of `load_to_db.py`, in insertion order. -/
def FILES : List FileCfg :=
  [⟨"public.customers", "customers.csv",
      ["id", "name", "email", "registration_date", "country"], "id"⟩,
   ⟨"public.products", "products.csv",
      ["id", "name", "category", "price", "supplier"], "id"⟩,
   ⟨"public.transactions", "transactions.csv",
      ["id", "customer_id", "product_id", "quantity", "timestamp", "payment_method"], "id"⟩]

/-- The pre-transaction existence check of `main`: the first configured
dataset whose source file is absent raises `FileNotFoundError`
(carrying the table name). -/
def checkFiles (files : String → Option CsvFile) : List FileCfg → Except String Unit
  | [] => Except.ok ()
  | cfg :: rest =>
    match files cfg.filename with
    | none => Except.error cfg.table
    | some _ => checkFiles files rest

/-- `UPDATE public.load_audit SET finished_at_utc=…, status=…, details=…
WHERE batch_id=…`: every row with the batch identifier is updated. -/
def auditFinish (audit : List AuditRow) (b fin : Nat) (st : String) (d : Details) :
    List AuditRow :=
  audit.map (fun r =>
    if r.batchId = b then { r with finishedAt := some fin, status := st, details := d } else r)

/-- Outcome of the dataset loop of `main` over the pending transaction
state: success with the collected per-dataset statistics, a Python-side
error caught by the `except` branch (pending state retained), or an
aborted transaction. -/
inductive AllOut
  | ok (db : DB) (clock : Nat) (stats : List (String × Nat))
  | pyErr (msg : String) (db : DB) (clock : Nat)
  | sqlErr
deriving Repr

/-- The `for table, (filename, cols, pk) in FILES.items()` loop of
`main`, threading the pending database state and the `utcnow` counter
and collecting `details[table] = stats`. -/
def loadAll (rowOk : String → Record → Bool) (chunk : Nat) (files : String → Option CsvFile)
    (times : Nat → Nat) : List FileCfg → DB → Nat → List (String × Nat) → AllOut
  | [], db, clock, acc => AllOut.ok db clock acc
  | cfg :: rest, db, clock, acc =>
    match files cfg.filename with
    | none => AllOut.pyErr ("Missing file " ++ cfg.filename) db clock
    | some file =>
      match load_table (rowOk cfg.table) chunk file cfg.cols cfg.pk times (db.getTable cfg.table) clock with
      | (LoadOut.ok submitted _, tbl, clock1) =>
        loadAll rowOk chunk files times rest (db.setTable cfg.table tbl) clock1
          (acc ++ [(cfg.table, submitted)])
      | (LoadOut.keyErr c, tbl, clock1) => AllOut.pyErr c (db.setTable cfg.table tbl) clock1
      | (LoadOut.sqlErr, _, _) => AllOut.sqlErr

/-- The caller-visible failure modes of an orchestrator run. -/
inductive RunError
  | fileNotFound (table : String)
  | pyError (msg : String)
  | inFailedSqlTransaction
  | uniqueViolation
deriving DecidableEq, Repr

/-- `main()` of `load_to_db.py`: capture the start timestamp, fail fast
on a missing source file, open one transaction, insert the `running`
audit row (its `batch_id` is a primary key: a clash aborts before the
`try` block and rolls back), run the dataset loop, and finish the audit
row.  On success the transaction commits the upserts and the
`succeeded` audit row together.  On a Python-side failure the `except`
branch updates the same audit row to `failed` and commits — publishing
the row mutations issued before the failure along with it.  On a
database-side failure the transaction is aborted, the `except` branch's
UPDATE itself raises, and the connection context manager rolls
everything back.  Returns the caller-visible result and the final
durable state. -/
def runMain (rowOk : String → Record → Bool) (chunk : Nat) (files : String → Option CsvFile)
    (times : Nat → Nat) (batchId loadDate : Nat) (db0 : DB) : Except RunError Nat × DB :=
  let started := times 0
  match checkFiles files FILES with
  | Except.error t => (Except.error (RunError.fileNotFound t), db0)
  | Except.ok _ =>
    if db0.audit.any (fun r => decide (r.batchId = batchId)) then
      (Except.error RunError.uniqueViolation, db0)
    else
      let pending : DB :=
        { db0 with audit := db0.audit ++ [⟨batchId, loadDate, started, none, "running", Details.empty⟩] }
      match loadAll rowOk chunk files times FILES pending 1 [] with
      | AllOut.ok db clock stats =>
        (Except.ok batchId,
          { db with audit := auditFinish db.audit batchId (times clock) "succeeded" (Details.stats stats) })
      | AllOut.pyErr msg db clock =>
        (Except.error (RunError.pyError msg),
          { db with audit := auditFinish db.audit batchId (times clock) "failed" (Details.err msg) })
      | AllOut.sqlErr => (Except.error RunError.inFailedSqlTransaction, db0)

/-- Key values of a table's rows, in row order. -/
def keysOf (pkIdx : Nat) (tbl : Table) : List (Option Cell) :=
  tbl.map (rowKey pkIdx)

/-- The durable row for a given primary-key value, if any. -/
def findRow (pkIdx : Nat) (tbl : Table) (k : Option Cell) : Option TableRow :=
  tbl.find? (fun r => decide (rowKey pkIdx r = k))

/-- The last record in a submission list carrying a given key. -/
def lastFind (pkIdx : Nat) (k : Option Cell) : List TableRow → Option TableRow
  | [] => none
  | r :: rs =>
    match lastFind pkIdx k rs with
    | some x => some x
    | none => if rowKey pkIdx r = k then some r else none

/-- The successful-run `details` payload: one entry per configured
dataset, carrying the number of input records of its source file. -/
def statsOf (files : String → Option CsvFile) : List (String × Nat) :=
  FILES.map (fun cfg =>
    (cfg.table, match files cfg.filename with
      | some file => file.rows.length
      | none => 0))


/-- The number of input records of a configured dataset's source file. -/
def rowsCount (files : String → Option CsvFile) (cfg : FileCfg) : Nat :=
  match files cfg.filename with
  | some file => file.rows.length
  | none => 0

/-- Key-list evolution of a table under a sequence of upserts: an
already-present key leaves the key list unchanged, a new key is
appended. -/
def kfold : List (Option Cell) → List (Option Cell) → List (Option Cell)
  | s, [] => s
  | s, k :: ks => kfold (if k ∈ s then s else s ++ [k]) ks

/-! Concrete inputs used by the counterexamples and witnesses. -/

/-- A database state with an empty ledger and empty dataset tables. -/
def emptyDB : DB := ⟨[], [], [], []⟩

/-- An external schema that accepts every row (all values coercible). -/
def allowAll : String → Record → Bool := fun _ _ => true

def csvCustomersOne : CsvFile :=
  ⟨["id", "name", "email", "registration_date", "country"],
   [["1", "Ana", "ana@example.com", "2020-01-01", "PT"]]⟩

def csvCustomersTwo : CsvFile :=
  ⟨["id", "name", "email", "registration_date", "country"],
   [["1", "Ana", "ana@example.com", "2020-01-01", "PT"],
    ["2", "Bo", "bo@example.com", "2021-05-05", "ES"]]⟩

/-- A products file whose header lacks the declared columns `name`,
`category`, `price`, `supplier`: its record is malformed. -/
def csvProductsBad : CsvFile := ⟨["id"], [["1"]]⟩

def csvProductsEmpty : CsvFile :=
  ⟨["id", "name", "category", "price", "supplier"], []⟩

def csvTransactionsEmpty : CsvFile :=
  ⟨["id", "customer_id", "product_id", "quantity", "timestamp", "payment_method"], []⟩

/-- All three sources present; the products file holds a malformed
record (missing declared columns). -/
def filesBadProducts : String → Option CsvFile := fun f =>
  if f = "customers.csv" then some csvCustomersOne
  else if f = "products.csv" then some csvProductsBad
  else if f = "transactions.csv" then some csvTransactionsEmpty
  else none

/-- Like `filesBadProducts`, with two well-formed customers records. -/
def filesBadProducts2 : String → Option CsvFile := fun f =>
  if f = "customers.csv" then some csvCustomersTwo
  else if f = "products.csv" then some csvProductsBad
  else if f = "transactions.csv" then some csvTransactionsEmpty
  else none

/-- All three sources present and fully well-formed. -/
def filesAllOk : String → Option CsvFile := fun f =>
  if f = "customers.csv" then some csvCustomersOne
  else if f = "products.csv" then some csvProductsEmpty
  else if f = "transactions.csv" then some csvTransactionsEmpty
  else none

/-- The products source is absent entirely. -/
def filesNoProducts : String → Option CsvFile := fun f =>
  if f = "customers.csv" then some csvCustomersOne
  else if f = "transactions.csv" then some csvTransactionsEmpty
  else none

/-- A one-row table used to exercise the reconciliation operation. -/
def wTbl : Table := [⟨[some "1", some "A"], 3⟩]

/-- A fresh-keyed record used to exercise the reconciliation operation. -/
def wRow : TableRow := ⟨[some "2", some "B"], 4⟩

/-- A two-record file whose records share the primary-key value. -/
def wDupFile : CsvFile := ⟨["id", "v"], [["1", "a"], ["1", "b"]]⟩

/-- The records of `wDupFile` as read starting at clock 0 under the
identity time sequence. -/
def wDupParsed : List TableRow :=
  [⟨[some "1", some "a"], 0⟩, ⟨[some "1", some "b"], 1⟩]

/-- A two-record file with distinct primary-key values. -/
def wTwoFile : CsvFile := ⟨["id", "v"], [["1", "a"], ["2", "b"]]⟩

/-- The records of `wTwoFile` as read starting at clock 0 under the
identity time sequence. -/
def wTwoParsed : List TableRow :=
  [⟨[some "1", some "a"], 0⟩, ⟨[some "2", some "b"], 1⟩]

/-- The products dataset's declared column list. -/
def wCols : List String := ["id", "name", "category", "price", "supplier"]

/-! ### Reconciliation-engine lemmas -/

theorem applyRecs_nil (pkIdx : Nat) (tbl : Table) : applyRecs pkIdx tbl [] = tbl := rfl

theorem applyRecs_cons (pkIdx : Nat) (tbl : Table) (r : TableRow) (l : List TableRow) :
    applyRecs pkIdx tbl (r :: l) = applyRecs pkIdx (upsertRow pkIdx tbl r) l := rfl

theorem applyRecs_append (pkIdx : Nat) (tbl : Table) (l1 l2 : List TableRow) :
    applyRecs pkIdx tbl (l1 ++ l2) = applyRecs pkIdx (applyRecs pkIdx tbl l1) l2 := by
  simp [applyRecs, List.foldl_append]

theorem findRow_nil (pkIdx : Nat) (k : Option Cell) : findRow pkIdx [] k = none := rfl

theorem findRow_cons (pkIdx : Nat) (r : TableRow) (t : Table) (k : Option Cell) :
    findRow pkIdx (r :: t) k = if rowKey pkIdx r = k then some r else findRow pkIdx t k := by
  simp only [findRow, List.find?]
  split
  · next h => simp [of_decide_eq_true h]
  · next h => simp [of_decide_eq_false h]

theorem findRow_upsert (pkIdx : Nat) (tbl : Table) (r : TableRow) (k : Option Cell) :
    findRow pkIdx (upsertRow pkIdx tbl r) k =
      if rowKey pkIdx r = k then some r else findRow pkIdx tbl k := by
  induction tbl with
  | nil => simp [upsertRow, findRow_cons, findRow_nil]
  | cons row rest ih =>
    by_cases hrow : rowKey pkIdx row = rowKey pkIdx r
    · simp only [upsertRow, if_pos hrow, findRow_cons]
      by_cases hk : rowKey pkIdx r = k
      · simp [hk]
      · simp only [if_neg hk]
        rw [if_neg (fun h => hk (hrow.symm.trans h))]
    · simp only [upsertRow, if_neg hrow, findRow_cons, ih]
      by_cases hk : rowKey pkIdx r = k
      · rw [if_pos hk, if_neg (hk ▸ hrow), if_pos hk]
      · simp [hk]

theorem keysOf_nil (pkIdx : Nat) : keysOf pkIdx [] = [] := rfl

theorem keysOf_cons (pkIdx : Nat) (r : TableRow) (t : Table) :
    keysOf pkIdx (r :: t) = rowKey pkIdx r :: keysOf pkIdx t := rfl

theorem keysOf_upsert (pkIdx : Nat) (tbl : Table) (r : TableRow) :
    keysOf pkIdx (upsertRow pkIdx tbl r) =
      if rowKey pkIdx r ∈ keysOf pkIdx tbl then keysOf pkIdx tbl
      else keysOf pkIdx tbl ++ [rowKey pkIdx r] := by
  induction tbl with
  | nil => simp [upsertRow, keysOf]
  | cons row rest ih =>
    by_cases hrow : rowKey pkIdx row = rowKey pkIdx r
    · simp [upsertRow, if_pos hrow, keysOf_cons, hrow]
    · simp only [upsertRow, if_neg hrow, keysOf_cons, ih, List.mem_cons]
      by_cases hmem : rowKey pkIdx r ∈ keysOf pkIdx rest
      · simp [hmem]
      · have hne : ¬rowKey pkIdx r = rowKey pkIdx row := fun h => hrow h.symm
        simp [hmem, hne]

theorem nodup_upsert (pkIdx : Nat) (tbl : Table) (r : TableRow)
    (h : (keysOf pkIdx tbl).Nodup) : (keysOf pkIdx (upsertRow pkIdx tbl r)).Nodup := by
  rw [keysOf_upsert]
  by_cases hmem : rowKey pkIdx r ∈ keysOf pkIdx tbl
  · simpa [hmem] using h
  · simp only [if_neg hmem]
    simpa [List.nodup_append] using ⟨h, hmem⟩

theorem nodup_applyRecs (pkIdx : Nat) (l : List TableRow) :
    ∀ tbl : Table, (keysOf pkIdx tbl).Nodup → (keysOf pkIdx (applyRecs pkIdx tbl l)).Nodup := by
  induction l with
  | nil => intro tbl h; exact h
  | cons r l ih =>
    intro tbl h
    rw [applyRecs_cons]
    exact ih _ (nodup_upsert pkIdx tbl r h)

theorem findRow_applyRecs (pkIdx : Nat) (k : Option Cell) (l : List TableRow) :
    ∀ tbl : Table, findRow pkIdx (applyRecs pkIdx tbl l) k =
      match lastFind pkIdx k l with
      | some x => some x
      | none => findRow pkIdx tbl k := by
  induction l with
  | nil => intro tbl; simp [lastFind, applyRecs]
  | cons r l ih =>
    intro tbl
    rw [applyRecs_cons, ih (upsertRow pkIdx tbl r)]
    simp only [lastFind]
    cases lastFind pkIdx k l with
    | some x => rfl
    | none =>
      rw [findRow_upsert]
      by_cases hk : rowKey pkIdx r = k <;> simp [hk]

theorem findRow_eq_none (pkIdx : Nat) (tbl : Table) (k : Option Cell)
    (h : k ∉ keysOf pkIdx tbl) : findRow pkIdx tbl k = none := by
  induction tbl with
  | nil => rfl
  | cons r t ih =>
    rw [findRow_cons]
    rw [keysOf_cons, List.mem_cons] at h
    push_neg at h
    rw [if_neg (fun he => h.1 he.symm)]
    exact ih h.2

theorem lastFind_eq_none (pkIdx : Nat) (k : Option Cell) (l : List TableRow)
    (h : k ∉ l.map (rowKey pkIdx)) : lastFind pkIdx k l = none := by
  induction l with
  | nil => rfl
  | cons r l ih =>
    rw [List.map_cons, List.mem_cons] at h
    push_neg at h
    simp only [lastFind, ih h.2]
    rw [if_neg (fun he => h.1 he.symm)]

theorem lastFind_ne_none (pkIdx : Nat) (k : Option Cell) (l : List TableRow)
    (h : k ∈ l.map (rowKey pkIdx)) : lastFind pkIdx k l ≠ none := by
  induction l with
  | nil => simp at h
  | cons r l ih =>
    rw [List.map_cons, List.mem_cons] at h
    simp only [lastFind]
    cases hl : lastFind pkIdx k l with
    | some x => simp
    | none =>
      rcases h with h | h
      · simp [h]
      · exact absurd hl (ih h)

theorem table_ext (pkIdx : Nat) :
    ∀ t1 t2 : Table, (keysOf pkIdx t1).Nodup → (keysOf pkIdx t2).Nodup →
      keysOf pkIdx t1 = keysOf pkIdx t2 →
      (∀ k, findRow pkIdx t1 k = findRow pkIdx t2 k) → t1 = t2 := by
  intro t1
  induction t1 with
  | nil =>
    intro t2 _ _ hkeys _
    cases t2 with
    | nil => rfl
    | cons b t2 => simp [keysOf] at hkeys
  | cons a t1 ih =>
    intro t2 hn1 hn2 hkeys hfind
    cases t2 with
    | nil => simp [keysOf] at hkeys
    | cons b t2 =>
      rw [keysOf_cons, keysOf_cons] at hkeys
      have hk : rowKey pkIdx a = rowKey pkIdx b := (List.cons.injEq _ _ _ _ ▸ hkeys).1
      have hkt : keysOf pkIdx t1 = keysOf pkIdx t2 := (List.cons.injEq _ _ _ _ ▸ hkeys).2
      rw [keysOf_cons] at hn1 hn2
      have hab : a = b := by
        have h1 := hfind (rowKey pkIdx a)
        rw [findRow_cons, findRow_cons, if_pos rfl, if_pos hk.symm] at h1
        exact Option.some.injEq _ _ ▸ h1
      have htails : ∀ k, findRow pkIdx t1 k = findRow pkIdx t2 k := by
        intro k
        by_cases hka : rowKey pkIdx a = k
        · have h1 : k ∉ keysOf pkIdx t1 := fun hm => (List.nodup_cons.mp hn1).1 (hka ▸ hm)
          have h2 : k ∉ keysOf pkIdx t2 := fun hm => (List.nodup_cons.mp hn2).1 (hk ▸ hka ▸ hm)
          rw [findRow_eq_none pkIdx t1 k h1, findRow_eq_none pkIdx t2 k h2]
        · have h1 := hfind k
          rw [findRow_cons, findRow_cons, if_neg hka, if_neg (hk ▸ hka)] at h1
          exact h1
      rw [hab, ih t2 (List.nodup_cons.mp hn1).2 (List.nodup_cons.mp hn2).2 hkt htails]

/-! ### Record-parsing lemmas -/

theorem parseAll_length (header cols : List String) (times : Nat → Nat) :
    ∀ rows : List (List String), ∀ clock l,
      parseAll header cols times clock rows = some l → l.length = rows.length := by
  intro rows
  induction rows with
  | nil => intro clock l h; simp [parseAll] at h; simp [← h]
  | cons raw rest ih =>
    intro clock l h
    simp only [parseAll] at h
    cases hv : rowVals header raw cols with
    | error e => rw [hv] at h; exact absurd h (by simp)
    | ok vals =>
      rw [hv] at h
      cases hp : parseAll header cols times (clock + 1) rest with
      | none => rw [hp] at h; exact absurd h (by simp)
      | some l1 =>
        rw [hp] at h
        simp only [Option.some.injEq] at h
        rw [← h]
        simp [ih (clock + 1) l1 hp]

theorem parseAll_stamp (header cols : List String) (times : Nat → Nat) :
    ∀ rows : List (List String), ∀ clock l,
      parseAll header cols times clock rows = some l →
      ∀ i, (hi : i < l.length) → (l.get ⟨i, hi⟩).ingestedAt = times (clock + i) := by
  intro rows
  induction rows with
  | nil =>
    intro clock l h
    simp [parseAll] at h
    subst h
    intro i hi
    exact absurd hi (by simp)
  | cons raw rest ih =>
    intro clock l h
    simp only [parseAll] at h
    cases hv : rowVals header raw cols with
    | error e => rw [hv] at h; exact absurd h (by simp)
    | ok vals =>
      rw [hv] at h
      cases hp : parseAll header cols times (clock + 1) rest with
      | none => rw [hp] at h; exact absurd h (by simp)
      | some l1 =>
        rw [hp] at h
        simp only [Option.some.injEq] at h
        subst h
        intro i hi
        cases i with
        | zero => simp
        | succ j =>
          have hj : j < l1.length := by simpa using hi
          have := ih (clock + 1) l1 hp j hj
          simpa [Nat.add_assoc, Nat.add_comm 1 j] using this

theorem parseAll_data (header cols : List String) :
    ∀ rows : List (List String), ∀ times1 times2 : Nat → Nat, ∀ clock1 clock2 l1 l2,
      parseAll header cols times1 clock1 rows = some l1 →
      parseAll header cols times2 clock2 rows = some l2 →
      l1.map TableRow.data = l2.map TableRow.data := by
  intro rows
  induction rows with
  | nil =>
    intro t1 t2 c1 c2 l1 l2 h1 h2
    simp only [parseAll, Option.some.injEq] at h1 h2
    rw [← h1, ← h2]
  | cons raw rest ih =>
    intro t1 t2 c1 c2 l1 l2 h1 h2
    simp only [parseAll] at h1 h2
    cases hv : rowVals header raw cols with
    | error e => rw [hv] at h1; exact absurd h1 (by simp)
    | ok vals =>
      rw [hv] at h1 h2
      cases hp1 : parseAll header cols t1 (c1 + 1) rest with
      | none => rw [hp1] at h1; exact absurd h1 (by simp)
      | some m1 =>
        cases hp2 : parseAll header cols t2 (c2 + 1) rest with
        | none => rw [hp2] at h2; exact absurd h2 (by simp)
        | some m2 =>
          rw [hp1] at h1; rw [hp2] at h2
          simp only [Option.some.injEq] at h1 h2
          subst h1; subst h2
          simp [ih t1 t2 (c1 + 1) (c2 + 1) m1 m2 hp1 hp2]

theorem parseAll_mem (header cols : List String) (times : Nat → Nat) :
    ∀ rows : List (List String), ∀ clock l,
      parseAll header cols times clock rows = some l →
      ∀ raw ∈ rows, ∃ r, r ∈ l ∧ rowVals header raw cols = Except.ok r.data := by
  intro rows
  induction rows with
  | nil => intro clock l _ raw hraw; exact absurd hraw (by simp)
  | cons raw0 rest ih =>
    intro clock l h raw hraw
    simp only [parseAll] at h
    cases hv : rowVals header raw0 cols with
    | error e => rw [hv] at h; exact absurd h (by simp)
    | ok vals =>
      rw [hv] at h
      cases hp : parseAll header cols times (clock + 1) rest with
      | none => rw [hp] at h; exact absurd h (by simp)
      | some l1 =>
        rw [hp] at h
        simp only [Option.some.injEq] at h
        subst h
        rcases List.mem_cons.mp hraw with hr | hr
        · exact ⟨⟨vals, times clock⟩, by simp, hr ▸ hv⟩
        · rcases ih (clock + 1) l1 hp raw hr with ⟨r, hrl, hrv⟩
          exact ⟨r, by simp [hrl], hrv⟩

/-! ### Batch-submitter lemmas -/

theorem execMany_ok_of_all (rowOk : Record → Bool) (pkIdx : Nat) :
    ∀ batch : List TableRow, ∀ tbl : Table,
      (∀ r ∈ batch, rowOk r.data = true) →
      execMany rowOk pkIdx tbl batch = Except.ok (applyRecs pkIdx tbl batch) := by
  intro batch
  induction batch with
  | nil => intro tbl _; simp [execMany, applyRecs]
  | cons r rs ih =>
    intro tbl hall
    rw [execMany, if_pos (hall r (by simp)), applyRecs_cons]
    exact ih _ (fun x hx => hall x (by simp [hx]))

theorem execMany_all_of_ok (rowOk : Record → Bool) (pkIdx : Nat) :
    ∀ batch : List TableRow, ∀ tbl tbl1 : Table,
      execMany rowOk pkIdx tbl batch = Except.ok tbl1 →
      ∀ r ∈ batch, rowOk r.data = true := by
  intro batch
  induction batch with
  | nil => intro tbl tbl1 _ r hr; exact absurd hr (by simp)
  | cons r0 rs ih =>
    intro tbl tbl1 h r hr
    rw [execMany] at h
    by_cases h0 : rowOk r0.data = true
    · rcases List.mem_cons.mp hr with hr | hr
      · exact hr ▸ h0
      · rw [if_pos h0] at h
        exact ih _ _ h r hr
    · rw [if_neg h0] at h
      exact absurd h (by simp)

theorem padTrips_zero (c : Nat) : padTrips 0 c = 0 := by
  simp [padTrips]

theorem padTrips_small (n c : Nat) (h0 : 0 < n) (hc : n < c) : padTrips n c = 1 := by
  have hd : n / c = 0 := Nat.div_eq_of_lt hc
  have hm : n % c = n := Nat.mod_eq_of_lt hc
  simp [padTrips, hd, hm, Nat.pos_iff_ne_zero.mp h0]

theorem padTrips_chunk (n c : Nat) (hc : 0 < c) : padTrips (c + n) c = 1 + padTrips n c := by
  have hd : (c + n) / c = n / c + 1 := by
    rw [Nat.add_comm c n, Nat.add_div_right _ hc]
  have hm : (c + n) % c = n % c := by
    rw [Nat.add_comm c n, Nat.add_mod_right]
  simp only [padTrips, hd, hm]
  omega

/-! ### Loader-loop characterization -/

theorem loadTableGo_ok (rowOk : Record → Bool) (pkIdx chunk : Nat) (header cols : List String)
    (times : Nat → Nat) (hchunk : 1 ≤ chunk) :
    ∀ rows : List (List String), ∀ batch : List TableRow, ∀ tbl : Table,
      ∀ submitted clock trips : Nat, ∀ l : List TableRow,
      batch.length < chunk →
      parseAll header cols times clock rows = some l →
      (∀ r ∈ batch ++ l, rowOk r.data = true) →
      loadTableGo rowOk pkIdx chunk header cols times rows tbl batch submitted clock trips =
        (LoadOut.ok (submitted + batch.length + l.length)
           (trips + padTrips (batch.length + l.length) chunk),
         applyRecs pkIdx tbl (batch ++ l), clock + rows.length) := by
  intro rows
  induction rows with
  | nil =>
    intro batch tbl submitted clock trips l hlt hp hall
    simp only [parseAll, Option.some.injEq] at hp
    subst hp
    cases batch with
    | nil => simp [loadTableGo, applyRecs, padTrips_zero]
    | cons b bs =>
      have hflush := execMany_ok_of_all rowOk pkIdx (b :: bs) tbl
        (fun r hr => hall r (by simp [hr]))
      have hpt : padTrips (b :: bs).length chunk = 1 :=
        padTrips_small _ _ (by simp) hlt
      simp only [loadTableGo, List.isEmpty_cons, Bool.false_eq_true, if_false, hflush,
        List.append_nil, List.length_nil, Nat.add_zero, hpt]
  | cons raw rest ih =>
    intro batch tbl submitted clock trips l hlt hp hall
    simp only [parseAll] at hp
    cases hv : rowVals header raw cols with
    | error e => rw [hv] at hp; exact absurd hp (by simp)
    | ok vals =>
      rw [hv] at hp
      cases hp1 : parseAll header cols times (clock + 1) rest with
      | none => rw [hp1] at hp; exact absurd hp (by simp)
      | some l1 =>
        rw [hp1] at hp
        simp only [Option.some.injEq] at hp
        subst hp
        simp only [loadTableGo, hv]
        have hba : (batch ++ [(⟨vals, times clock⟩ : TableRow)]).length = batch.length + 1 := by
          simp
        by_cases hfull : chunk ≤ (batch ++ [(⟨vals, times clock⟩ : TableRow)]).length
        · have hlen : batch.length + 1 = chunk := by rw [hba] at hfull; omega
          have hflush := execMany_ok_of_all rowOk pkIdx (batch ++ [⟨vals, times clock⟩]) tbl
            (fun r hr => hall r (by
              rcases List.mem_append.mp hr with h | h
              · exact List.mem_append.mpr (Or.inl h)
              · simp only [List.mem_singleton] at h
                exact List.mem_append.mpr (Or.inr (by simp [h]))))
          simp only [if_pos hfull, hflush]
          have hrec := ih ([] : List TableRow) (applyRecs pkIdx tbl (batch ++ [⟨vals, times clock⟩]))
            (submitted + (batch ++ [(⟨vals, times clock⟩ : TableRow)]).length)
            (clock + 1) (trips + 1) l1
            (by simpa using hchunk) hp1
            (fun r hr => hall r (by
              simp only [List.nil_append] at hr
              exact List.mem_append.mpr (Or.inr (by simp [hr]))))
          rw [hrec]
          have htbl : applyRecs pkIdx (applyRecs pkIdx tbl (batch ++ [⟨vals, times clock⟩])) l1 =
              applyRecs pkIdx tbl (batch ++ ⟨vals, times clock⟩ :: l1) := by
            rw [← applyRecs_append]
            simp [List.append_assoc]
          have harg : batch.length + (⟨vals, times clock⟩ :: l1).length = chunk + l1.length := by
            simp only [List.length_cons]
            omega
          simp only [Prod.mk.injEq, LoadOut.ok.injEq]
          refine ⟨⟨by simp only [List.length_nil, List.length_cons, List.length_append] at *; omega, ?_⟩,
            htbl, by simp [List.length_cons]; omega⟩
          rw [harg, padTrips_chunk _ _ (by omega)]
          simp only [List.length_nil, Nat.zero_add]
          omega
        · rw [if_neg hfull]
          have hrec := ih (batch ++ [⟨vals, times clock⟩]) tbl submitted (clock + 1) trips l1
            (by simp only [List.length_append, List.length_cons, List.length_nil] at hfull ⊢; omega)
            hp1
            (fun r hr => hall r (by
              rcases List.mem_append.mp hr with h | h
              · rcases List.mem_append.mp h with h2 | h2
                · exact List.mem_append.mpr (Or.inl h2)
                · simp only [List.mem_singleton] at h2
                  exact List.mem_append.mpr (Or.inr (by simp [h2]))
              · exact List.mem_append.mpr (Or.inr (by simp [h]))))
          rw [hrec]
          have htbl : applyRecs pkIdx tbl ((batch ++ [⟨vals, times clock⟩]) ++ l1) =
              applyRecs pkIdx tbl (batch ++ ⟨vals, times clock⟩ :: l1) := by
            simp [List.append_assoc]
          simp only [Prod.mk.injEq, LoadOut.ok.injEq]
          refine ⟨⟨by simp only [List.length_cons, List.length_append, List.length_nil]; omega, ?_⟩,
            htbl, by simp [List.length_cons]; omega⟩
          have harg : (batch ++ [(⟨vals, times clock⟩ : TableRow)]).length + l1.length =
              batch.length + (⟨vals, times clock⟩ :: l1).length := by
            simp only [List.length_append, List.length_cons, List.length_nil]
            omega
          rw [harg]

theorem loadTableGo_ok_submitted (rowOk : Record → Bool) (pkIdx chunk : Nat)
    (header cols : List String) (times : Nat → Nat) :
    ∀ rows : List (List String), ∀ batch : List TableRow, ∀ tbl : Table,
      ∀ submitted clock trips s tr : Nat, ∀ tbl1 : Table, ∀ clock1 : Nat,
      loadTableGo rowOk pkIdx chunk header cols times rows tbl batch submitted clock trips =
        (LoadOut.ok s tr, tbl1, clock1) →
      s = submitted + batch.length + rows.length := by
  intro rows
  induction rows with
  | nil =>
    intro batch tbl submitted clock trips s tr tbl1 clock1 h
    cases hb : batch with
    | nil =>
      subst hb
      simp only [loadTableGo, List.isEmpty_nil, if_true] at h
      simp only [Prod.mk.injEq, LoadOut.ok.injEq] at h
      simp [← h.1.1]
    | cons b bs =>
      subst hb
      simp only [loadTableGo, List.isEmpty_cons, Bool.false_eq_true, if_false] at h
      cases he : execMany rowOk pkIdx tbl (b :: bs) with
      | ok t =>
        rw [he] at h
        simp only [Prod.mk.injEq, LoadOut.ok.injEq] at h
        simp [← h.1.1]
      | error u => rw [he] at h; exact absurd h (by simp)
  | cons raw rest ih =>
    intro batch tbl submitted clock trips s tr tbl1 clock1 h
    simp only [loadTableGo] at h
    cases hv : rowVals header raw cols with
    | error e => rw [hv] at h; exact absurd h (by simp)
    | ok vals =>
      rw [hv] at h
      simp only at h
      by_cases hfull : chunk ≤ (batch ++ [(⟨vals, times clock⟩ : TableRow)]).length
      · rw [if_pos hfull] at h
        cases he : execMany rowOk pkIdx tbl (batch ++ [⟨vals, times clock⟩]) with
        | ok t =>
          rw [he] at h
          simp only at h
          have := ih _ _ _ _ _ _ _ _ _ h
          simp only [List.length_append, List.length_cons, List.length_nil] at this ⊢
          omega
        | error u => rw [he] at h; exact absurd h (by simp)
      · rw [if_neg hfull] at h
        have := ih _ _ _ _ _ _ _ _ _ h
        simp only [List.length_append, List.length_cons, List.length_nil] at this ⊢
        omega

theorem loadTableGo_ok_wellformed (rowOk : Record → Bool) (pkIdx chunk : Nat)
    (header cols : List String) (times : Nat → Nat) :
    ∀ rows : List (List String), ∀ batch : List TableRow, ∀ tbl : Table,
      ∀ submitted clock trips s tr : Nat, ∀ tbl1 : Table, ∀ clock1 : Nat,
      loadTableGo rowOk pkIdx chunk header cols times rows tbl batch submitted clock trips =
        (LoadOut.ok s tr, tbl1, clock1) →
      ∃ l, parseAll header cols times clock rows = some l ∧
        ∀ r ∈ batch ++ l, rowOk r.data = true := by
  intro rows
  induction rows with
  | nil =>
    intro batch tbl submitted clock trips s tr tbl1 clock1 h
    cases hb : batch with
    | nil => exact ⟨[], by simp [parseAll], by simp [hb]⟩
    | cons b bs =>
      subst hb
      simp only [loadTableGo, List.isEmpty_cons, Bool.false_eq_true, if_false] at h
      cases he : execMany rowOk pkIdx tbl (b :: bs) with
      | ok t =>
        refine ⟨[], by simp [parseAll], ?_⟩
        intro r hr
        rw [List.append_nil] at hr
        exact execMany_all_of_ok rowOk pkIdx _ _ _ he r hr
      | error u => rw [he] at h; exact absurd h (by simp)
  | cons raw rest ih =>
    intro batch tbl submitted clock trips s tr tbl1 clock1 h
    simp only [loadTableGo] at h
    cases hv : rowVals header raw cols with
    | error e => rw [hv] at h; exact absurd h (by simp)
    | ok vals =>
      rw [hv] at h
      simp only at h
      by_cases hfull : chunk ≤ (batch ++ [(⟨vals, times clock⟩ : TableRow)]).length
      · rw [if_pos hfull] at h
        cases he : execMany rowOk pkIdx tbl (batch ++ [⟨vals, times clock⟩]) with
        | ok t =>
          rw [he] at h
          simp only at h
          rcases ih _ _ _ _ _ _ _ _ _ h with ⟨l1, hp1, hok1⟩
          have hbatch1 : ∀ r ∈ batch ++ [(⟨vals, times clock⟩ : TableRow)], rowOk r.data = true :=
            execMany_all_of_ok rowOk pkIdx _ _ _ he
          refine ⟨⟨vals, times clock⟩ :: l1, ?_, ?_⟩
          · simp [parseAll, hv, hp1]
          · intro r hr
            rcases List.mem_append.mp hr with hr | hr
            · exact hbatch1 r (List.mem_append.mpr (Or.inl hr))
            · rcases List.mem_cons.mp hr with hr | hr
              · exact hbatch1 r (List.mem_append.mpr (Or.inr (by simp [hr])))
              · exact hok1 r (by simp [hr])
        | error u => rw [he] at h; exact absurd h (by simp)
      · rw [if_neg hfull] at h
        rcases ih _ _ _ _ _ _ _ _ _ h with ⟨l1, hp1, hok1⟩
        refine ⟨⟨vals, times clock⟩ :: l1, ?_, ?_⟩
        · simp [parseAll, hv, hp1]
        · intro r hr
          rcases List.mem_append.mp hr with hr | hr
          · exact hok1 r (by simp [hr])
          · rcases List.mem_cons.mp hr with hr | hr
            · exact hok1 r (by simp [hr])
            · exact hok1 r (by simp [hr])

/-! ### Orchestrator-level lemmas -/

theorem setTable_audit (db : DB) (t : String) (tbl : Table) :
    (db.setTable t tbl).audit = db.audit := by
  simp only [DB.setTable]
  split_ifs <;> rfl

theorem loadAll_ok_stats (rowOk : String → Record → Bool) (chunk : Nat)
    (files : String → Option CsvFile) (times : Nat → Nat) :
    ∀ cfgs : List FileCfg, ∀ db : DB, ∀ clock : Nat, ∀ acc : List (String × Nat),
      ∀ db1 : DB, ∀ clock1 : Nat, ∀ stats : List (String × Nat),
      loadAll rowOk chunk files times cfgs db clock acc = AllOut.ok db1 clock1 stats →
      stats = acc ++ cfgs.map (fun cfg => (cfg.table, rowsCount files cfg)) ∧
        db1.audit = db.audit := by
  intro cfgs
  induction cfgs with
  | nil =>
    intro db clock acc db1 clock1 stats h
    simp only [loadAll, AllOut.ok.injEq] at h
    exact ⟨by simp [← h.2.2], by rw [← h.1]⟩
  | cons cfg rest ih =>
    intro db clock acc db1 clock1 stats h
    simp only [loadAll] at h
    cases hf : files cfg.filename with
    | none => rw [hf] at h; exact absurd h (by simp)
    | some file =>
      simp only [hf] at h
      rcases hload : load_table (rowOk cfg.table) chunk file cfg.cols cfg.pk times
          (db.getTable cfg.table) clock with ⟨out, tbl2, clock2⟩
      cases out with
      | ok s tr =>
        simp only [hload] at h
        rcases ih _ _ _ _ _ _ h with ⟨hstats, haudit⟩
        have hs : s = file.rows.length := by
          rw [load_table] at hload
          have := loadTableGo_ok_submitted (rowOk cfg.table) (colIndex cfg.pk cfg.cols) chunk
            file.header cfg.cols times file.rows [] (db.getTable cfg.table) 0 clock 0
            s tr tbl2 clock2 hload
          simpa using this
        constructor
        · rw [hstats, hs]
          simp [rowsCount, hf]
        · rw [haudit, setTable_audit]
      | keyErr c => simp only [hload] at h; exact absurd h (by simp)
      | sqlErr => simp only [hload] at h; exact absurd h (by simp)

theorem loadAll_pyErr_audit (rowOk : String → Record → Bool) (chunk : Nat)
    (files : String → Option CsvFile) (times : Nat → Nat) :
    ∀ cfgs : List FileCfg, ∀ db : DB, ∀ clock : Nat, ∀ acc : List (String × Nat),
      ∀ msg : String, ∀ db1 : DB, ∀ clock1 : Nat,
      loadAll rowOk chunk files times cfgs db clock acc = AllOut.pyErr msg db1 clock1 →
      db1.audit = db.audit := by
  intro cfgs
  induction cfgs with
  | nil =>
    intro db clock acc msg db1 clock1 h
    simp [loadAll] at h
  | cons cfg rest ih =>
    intro db clock acc msg db1 clock1 h
    simp only [loadAll] at h
    cases hf : files cfg.filename with
    | none =>
      simp only [hf, AllOut.pyErr.injEq] at h
      rw [← h.2.1]
    | some file =>
      simp only [hf] at h
      rcases hload : load_table (rowOk cfg.table) chunk file cfg.cols cfg.pk times
          (db.getTable cfg.table) clock with ⟨out, tbl2, clock2⟩
      cases out with
      | ok s tr =>
        simp only [hload] at h
        rw [ih _ _ _ _ _ _ h, setTable_audit]
      | keyErr c =>
        simp only [hload, AllOut.pyErr.injEq] at h
        rw [← h.2.1, setTable_audit]
      | sqlErr => simp only [hload] at h; exact absurd h (by simp)

theorem loadAll_ok_wellformed (rowOk : String → Record → Bool) (chunk : Nat)
    (files : String → Option CsvFile) (times : Nat → Nat) :
    ∀ cfgs : List FileCfg, ∀ db : DB, ∀ clock : Nat, ∀ acc : List (String × Nat),
      ∀ db1 : DB, ∀ clock1 : Nat, ∀ stats : List (String × Nat),
      loadAll rowOk chunk files times cfgs db clock acc = AllOut.ok db1 clock1 stats →
      ∀ cfg ∈ cfgs, ∃ file, files cfg.filename = some file ∧
        ∃ c l, parseAll file.header cfg.cols times c file.rows = some l ∧
          ∀ r ∈ l, rowOk cfg.table r.data = true := by
  intro cfgs
  induction cfgs with
  | nil => intro db clock acc db1 clock1 stats _ cfg hcfg; exact absurd hcfg (by simp)
  | cons cfg0 rest ih =>
    intro db clock acc db1 clock1 stats h cfg hcfg
    simp only [loadAll] at h
    cases hf : files cfg0.filename with
    | none => rw [hf] at h; exact absurd h (by simp)
    | some file =>
      simp only [hf] at h
      rcases hload : load_table (rowOk cfg0.table) chunk file cfg0.cols cfg0.pk times
          (db.getTable cfg0.table) clock with ⟨out, tbl2, clock2⟩
      cases out with
      | ok s tr =>
        simp only [hload] at h
        rcases List.mem_cons.mp hcfg with hc | hc
        · subst hc
          rw [load_table] at hload
          rcases loadTableGo_ok_wellformed (rowOk cfg.table) (colIndex cfg.pk cfg.cols) chunk
              file.header cfg.cols times file.rows [] (db.getTable cfg.table) 0 clock 0
              s tr tbl2 clock2 hload with ⟨l, hp, hok⟩
          exact ⟨file, hf, clock, l, hp, fun r hr => hok r (by simp [hr])⟩
        · exact ih _ _ _ _ _ _ h cfg hc
      | keyErr c => simp only [hload] at h; exact absurd h (by simp)
      | sqlErr => simp only [hload] at h; exact absurd h (by simp)

theorem audit_any_false (a : List AuditRow) (b : Nat) (h : ∀ r ∈ a, r.batchId ≠ b) :
    a.any (fun r => decide (r.batchId = b)) = false := by
  rw [List.any_eq_false]
  intro r hr
  simpa using h r hr

theorem auditFinish_filter (b : Nat) (ld st : Nat) (fin : Nat) (s : String) (d : Details) :
    ∀ a0 : List AuditRow, (∀ r ∈ a0, r.batchId ≠ b) →
      (auditFinish (a0 ++ [⟨b, ld, st, none, "running", Details.empty⟩]) b fin s d).filter
          (fun r => decide (r.batchId = b)) =
        [⟨b, ld, st, some fin, s, d⟩] := by
  intro a0
  induction a0 with
  | nil => simp [auditFinish]
  | cons r0 rest ih =>
    intro h
    have hr0 : r0.batchId ≠ b := h r0 (by simp)
    simp only [List.cons_append, auditFinish, List.map_cons, if_neg hr0]
    rw [List.filter_cons_of_neg (by simpa using hr0)]
    exact ih (fun r hr => h r (by simp [hr]))

theorem checkFiles_error_of_missing (files : String → Option CsvFile) :
    ∀ cfgs : List FileCfg, ∀ cfg ∈ cfgs, files cfg.filename = none →
      ∃ t, checkFiles files cfgs = Except.error t := by
  intro cfgs
  induction cfgs with
  | nil => intro cfg hcfg _; exact absurd hcfg (by simp)
  | cons cfg0 rest ih =>
    intro cfg hcfg hmiss
    rcases List.mem_cons.mp hcfg with hc | hc
    · subst hc
      exact ⟨cfg.table, by simp [checkFiles, hmiss]⟩
    · cases hf : files cfg0.filename with
      | none => exact ⟨cfg0.table, by simp [checkFiles, hf]⟩
      | some file =>
        rcases ih cfg hc hmiss with ⟨t, ht⟩
        exact ⟨t, by simp [checkFiles, hf, ht]⟩

/-! ### Further support lemmas -/

theorem upsert_eq_append (pkIdx : Nat) :
    ∀ tbl : Table, ∀ r : TableRow, rowKey pkIdx r ∉ keysOf pkIdx tbl →
      upsertRow pkIdx tbl r = tbl ++ [r] := by
  intro tbl
  induction tbl with
  | nil => intro r _; rfl
  | cons row rest ih =>
    intro r h
    rw [keysOf_cons, List.mem_cons] at h
    push_neg at h
    rw [upsertRow, if_neg (fun he => h.1 he.symm), ih r h.2]
    rfl

theorem kfold_mono (k : Option Cell) :
    ∀ ks s : List (Option Cell), k ∈ s → k ∈ kfold s ks := by
  intro ks
  induction ks with
  | nil => intro s h; exact h
  | cons k0 ks ih =>
    intro s h
    rw [kfold]
    apply ih
    by_cases h0 : k0 ∈ s
    · simpa [h0] using h
    · simp [h0, h]

theorem kfold_mem (k : Option Cell) :
    ∀ ks s : List (Option Cell), k ∈ ks → k ∈ kfold s ks := by
  intro ks
  induction ks with
  | nil => intro s h; exact absurd h (by simp)
  | cons k0 ks ih =>
    intro s h
    rcases List.mem_cons.mp h with h | h
    · subst h
      rw [kfold]
      apply kfold_mono
      by_cases h0 : k ∈ s
      · simp [h0]
      · simp [h0]
    · rw [kfold]
      exact ih _ h

theorem kfold_absorb :
    ∀ ks s : List (Option Cell), (∀ k ∈ ks, k ∈ s) → kfold s ks = s := by
  intro ks
  induction ks with
  | nil => intro s _; rfl
  | cons k0 ks ih =>
    intro s h
    rw [kfold, if_pos (h k0 (by simp))]
    exact ih s (fun k hk => h k (by simp [hk]))

theorem keysOf_applyRecs (pkIdx : Nat) :
    ∀ l : List TableRow, ∀ tbl : Table,
      keysOf pkIdx (applyRecs pkIdx tbl l) = kfold (keysOf pkIdx tbl) (l.map (rowKey pkIdx)) := by
  intro l
  induction l with
  | nil => intro tbl; rfl
  | cons r l ih =>
    intro tbl
    rw [applyRecs_cons, ih, List.map_cons, kfold, keysOf_upsert]

theorem applyRecs_idem (pkIdx : Nat) (l1 l2 : List TableRow)
    (hk : l1.map (rowKey pkIdx) = l2.map (rowKey pkIdx)) :
    applyRecs pkIdx (applyRecs pkIdx [] l1) l2 = applyRecs pkIdx [] l2 := by
  have hnd0 : (keysOf pkIdx ([] : Table)).Nodup := by simp [keysOf]
  have hnd1 : (keysOf pkIdx (applyRecs pkIdx [] l1)).Nodup := nodup_applyRecs pkIdx l1 [] hnd0
  apply table_ext pkIdx
  · exact nodup_applyRecs pkIdx l2 _ hnd1
  · exact nodup_applyRecs pkIdx l2 [] hnd0
  · rw [keysOf_applyRecs, keysOf_applyRecs, keysOf_applyRecs]
    have hmem : ∀ k ∈ l2.map (rowKey pkIdx), k ∈ kfold (keysOf pkIdx ([] : Table)) (l1.map (rowKey pkIdx)) := by
      intro k hkmem
      exact kfold_mem k _ _ (hk ▸ hkmem)
    rw [hk]
    have habs : kfold (kfold (keysOf pkIdx ([] : Table)) (l2.map (rowKey pkIdx))) (l2.map (rowKey pkIdx)) =
        kfold (keysOf pkIdx ([] : Table)) (l2.map (rowKey pkIdx)) :=
      kfold_absorb _ _ (fun k hkmem => kfold_mem k _ _ hkmem)
    exact habs
  · intro k
    rw [findRow_applyRecs pkIdx k l2 (applyRecs pkIdx [] l1),
        findRow_applyRecs pkIdx k l2 ([] : Table)]
    cases hlast : lastFind pkIdx k l2 with
    | some x => rfl
    | none =>
      have hk2 : k ∉ l2.map (rowKey pkIdx) := by
        intro hmem
        exact lastFind_ne_none pkIdx k l2 hmem hlast
      have hk1 : k ∉ l1.map (rowKey pkIdx) := hk ▸ hk2
      rw [findRow_applyRecs pkIdx k l1 ([] : Table), lastFind_eq_none pkIdx k l1 hk1]

theorem dictGetFrom_none (raw : List String) (c : String) :
    ∀ hs : List String, ∀ i : Nat, c ∉ hs → dictGetFrom raw c i hs = none := by
  intro hs
  induction hs with
  | nil => intro i _; rfl
  | cons h0 rest ih =>
    intro i hmem
    rw [List.mem_cons] at hmem
    push_neg at hmem
    have hne : h0 ≠ c := fun he => hmem.1 he.symm
    rw [dictGetFrom, ih (i + 1) hmem.2]
    simp [hne]

theorem dictGetFrom_nodup (raw : List String) (c : String) :
    ∀ hs : List String, ∀ i : Nat, hs.Nodup → c ∈ hs →
      dictGetFrom raw c i hs = some (raw.get? (i + colIndex c hs)) := by
  intro hs
  induction hs with
  | nil => intro i _ hmem; exact absurd hmem (by simp)
  | cons h0 rest ih =>
    intro i hnd hmem
    rw [dictGetFrom]
    by_cases hc : h0 = c
    · subst hc
      have hnotin : h0 ∉ rest := (List.nodup_cons.mp hnd).1
      rw [dictGetFrom_none raw h0 rest (i + 1) hnotin]
      simp [colIndex]
    · have hcrest : c ∈ rest := by
        rcases List.mem_cons.mp hmem with h | h
        · exact absurd h.symm hc
        · exact h
      rw [ih (i + 1) (List.nodup_cons.mp hnd).2 hcrest]
      simp only [colIndex, if_neg hc]
      have : i + (colIndex c rest + 1) = i + 1 + colIndex c rest := by omega
      rw [this]

theorem dictGet_nodup (header raw : List String) (c : String)
    (hnd : header.Nodup) (hc : c ∈ header) :
    dictGet header raw c = some (raw.get? (colIndex c header)) := by
  rw [dictGet, dictGetFrom_nodup raw c header 0 hnd hc]
  simp

theorem rowVals_all (header raw : List String) (f : String → Cell) :
    ∀ sub : List String, (∀ c ∈ sub, dictGet header raw c = some (f c)) →
      rowVals header raw sub = Except.ok (sub.map f) := by
  intro sub
  induction sub with
  | nil => intro _; rfl
  | cons c cs ih =>
    intro h
    rw [rowVals, h c (by simp), ih (fun x hx => h x (by simp [hx]))]
    rfl

theorem colIndex_get (c : String) :
    ∀ cols : List String, c ∈ cols → cols.get? (colIndex c cols) = some c := by
  intro cols
  induction cols with
  | nil => intro h; exact absurd h (by simp)
  | cons x xs ih =>
    intro h
    by_cases hx : x = c
    · subst hx; simp [colIndex]
    · rcases List.mem_cons.mp h with h0 | h0
      · exact absurd h0.symm hx
      · simp only [colIndex, if_neg hx]
        rw [List.get?_cons_succ]
        exact ih h0

/-! ### Claims -/

/-- C4: For every record submitted through the Reconciliation Engine:
if no row exists for the record's primary-key value, the row (record
plus its ingestion timestamp) is appended; if a row exists for that
key, it is overwritten wholesale with the incoming record's values
(every non-key column and the ingestion timestamp), all other keys are
untouched, and at most one row per primary-key value exists
afterwards. -/
theorem C4_upsert_reconciliation (pkIdx : Nat) (tbl : Table) (r : TableRow)
    (hnd : (keysOf pkIdx tbl).Nodup) :
    (rowKey pkIdx r ∉ keysOf pkIdx tbl → upsertRow pkIdx tbl r = tbl ++ [r]) ∧
    findRow pkIdx (upsertRow pkIdx tbl r) (rowKey pkIdx r) = some r ∧
    (∀ k, k ≠ rowKey pkIdx r → findRow pkIdx (upsertRow pkIdx tbl r) k = findRow pkIdx tbl k) ∧
    (keysOf pkIdx (upsertRow pkIdx tbl r)).Nodup := by
  refine ⟨fun hnot => upsert_eq_append pkIdx tbl r hnot, ?_, ?_,
    nodup_upsert pkIdx tbl r hnd⟩
  · rw [findRow_upsert, if_pos rfl]
  · intro k hk
    rw [findRow_upsert, if_neg (fun he => hk he.symm)]

/-- Witness for C4 at a concrete one-row table and fresh record. -/
theorem C4_upsert_reconciliation_witness :
    (keysOf 0 wTbl).Nodup ∧
    ((rowKey 0 wRow ∉ keysOf 0 wTbl → upsertRow 0 wTbl wRow = wTbl ++ [wRow]) ∧
      findRow 0 (upsertRow 0 wTbl wRow) (rowKey 0 wRow) = some wRow ∧
      (∀ k, k ≠ rowKey 0 wRow → findRow 0 (upsertRow 0 wTbl wRow) k = findRow 0 wTbl k) ∧
      (keysOf 0 (upsertRow 0 wTbl wRow)).Nodup) :=
  ⟨by decide, C4_upsert_reconciliation 0 wTbl wRow (by decide)⟩

/-- C9: A file containing two or more records with the same
primary-key value does not fail the load: every record is submitted
(the success outcome counts all of them) and the durable row for every
key equals the last record in file order carrying that key. -/
theorem C9_duplicate_keys_last_wins (rowOk : Record → Bool) (chunk : Nat) (file : CsvFile)
    (cols : List String) (pk : String) (times : Nat → Nat) (clock : Nat) (l : List TableRow)
    (hchunk : 1 ≤ chunk)
    (hp : parseAll file.header cols times clock file.rows = some l)
    (hok : ∀ r ∈ l, rowOk r.data = true)
    (hdup : ∃ i j, ∃ hi : i < l.length, ∃ hj : j < l.length, i ≠ j ∧
        rowKey (colIndex pk cols) (l.get ⟨i, hi⟩) = rowKey (colIndex pk cols) (l.get ⟨j, hj⟩)) :
    (load_table rowOk chunk file cols pk times [] clock).1 =
        LoadOut.ok file.rows.length (padTrips file.rows.length chunk) ∧
    ∀ k, findRow (colIndex pk cols) (load_table rowOk chunk file cols pk times [] clock).2.1 k =
        lastFind (colIndex pk cols) k l := by
  have hlen := parseAll_length file.header cols times file.rows clock l hp
  have h1 := loadTableGo_ok rowOk (colIndex pk cols) chunk file.header cols times hchunk
    file.rows [] [] 0 clock 0 l (by simpa using hchunk) hp (by simpa using hok)
  constructor
  · simp only [load_table, h1]
    simp [hlen]
  · intro k
    simp only [load_table, h1, List.nil_append]
    rw [findRow_applyRecs]
    cases lastFind (colIndex pk cols) k l <;> rfl

/-- Witness for C9 at a concrete duplicate-key file. -/
theorem C9_duplicate_keys_last_wins_witness :
    parseAll wDupFile.header ["id", "v"] (fun n => n) 0 wDupFile.rows = some wDupParsed ∧
    ((load_table (fun _ => true) 1000 wDupFile ["id", "v"] "id" (fun n => n) [] 0).1 =
        LoadOut.ok wDupFile.rows.length (padTrips wDupFile.rows.length 1000) ∧
      ∀ k, findRow (colIndex "id" ["id", "v"])
          (load_table (fun _ => true) 1000 wDupFile ["id", "v"] "id" (fun n => n) [] 0).2.1 k =
        lastFind (colIndex "id" ["id", "v"]) k wDupParsed) :=
  ⟨by decide,
   C9_duplicate_keys_last_wins (fun _ => true) 1000 wDupFile ["id", "v"] "id" (fun n => n) 0
     wDupParsed (by decide) (by decide) (by decide)
     ⟨0, 1, by decide, by decide, by decide, by decide⟩⟩

/-- C5: Loading the same dataset twice with identical records yields
exactly the state of a single (second) load: one row per primary key
with no duplicates, data content identical to a single load, and every
ingestion timestamp taken from the second load's submission times. -/
theorem C5_idempotent_reload (rowOk : Record → Bool) (chunk : Nat) (file : CsvFile)
    (cols : List String) (pk : String) (times : Nat → Nat) (clock1 clock2 : Nat)
    (l1 l2 : List TableRow)
    (hchunk : 1 ≤ chunk)
    (hp1 : parseAll file.header cols times clock1 file.rows = some l1)
    (hp2 : parseAll file.header cols times clock2 file.rows = some l2)
    (hok1 : ∀ r ∈ l1, rowOk r.data = true)
    (hok2 : ∀ r ∈ l2, rowOk r.data = true) :
    (load_table rowOk chunk file cols pk times
        ((load_table rowOk chunk file cols pk times [] clock1).2.1) clock2).2.1 =
      (load_table rowOk chunk file cols pk times [] clock2).2.1 ∧
    (keysOf (colIndex pk cols)
        ((load_table rowOk chunk file cols pk times [] clock2).2.1)).Nodup := by
  have h1 := loadTableGo_ok rowOk (colIndex pk cols) chunk file.header cols times hchunk
    file.rows [] [] 0 clock1 0 l1 (by simpa using hchunk) hp1 (by simpa using hok1)
  have h3 := loadTableGo_ok rowOk (colIndex pk cols) chunk file.header cols times hchunk
    file.rows [] [] 0 clock2 0 l2 (by simpa using hchunk) hp2 (by simpa using hok2)
  have h2 := loadTableGo_ok rowOk (colIndex pk cols) chunk file.header cols times hchunk
    file.rows [] (applyRecs (colIndex pk cols) [] l1) 0 clock2 0 l2
    (by simpa using hchunk) hp2 (by simpa using hok2)
  have hdata := parseAll_data file.header cols file.rows times times clock1 clock2 l1 l2 hp1 hp2
  have hkeys : l1.map (rowKey (colIndex pk cols)) = l2.map (rowKey (colIndex pk cols)) := by
    have hmm : ∀ l : List TableRow,
        l.map (rowKey (colIndex pk cols)) =
          (l.map TableRow.data).map (fun d => d.get? (colIndex pk cols)) := by
      intro l
      rw [List.map_map]
      rfl
    rw [hmm l1, hmm l2, hdata]
  constructor
  · simp only [load_table, h1, List.nil_append, h2, h3]
    exact applyRecs_idem (colIndex pk cols) l1 l2 hkeys
  · simp only [load_table, h3, List.nil_append]
    exact nodup_applyRecs (colIndex pk cols) l2 [] (by simp [keysOf])

/-- Witness for C5 at a concrete two-record file, reloaded with later
timestamps. -/
theorem C5_idempotent_reload_witness :
    parseAll wTwoFile.header ["id", "v"] (fun n => n) 0 wTwoFile.rows = some wTwoParsed ∧
    ((load_table (fun _ => true) 1000 wTwoFile ["id", "v"] "id" (fun n => n)
        ((load_table (fun _ => true) 1000 wTwoFile ["id", "v"] "id" (fun n => n) [] 0).2.1) 7).2.1 =
      (load_table (fun _ => true) 1000 wTwoFile ["id", "v"] "id" (fun n => n) [] 7).2.1 ∧
    (keysOf (colIndex "id" ["id", "v"])
        ((load_table (fun _ => true) 1000 wTwoFile ["id", "v"] "id" (fun n => n) [] 7).2.1)).Nodup) :=
  ⟨by decide,
   C5_idempotent_reload (fun _ => true) 1000 wTwoFile ["id", "v"] "id" (fun n => n) 0 7
     wTwoParsed [⟨[some "1", some "a"], 7⟩, ⟨[some "2", some "b"], 8⟩]
     (by decide) (by decide) (by decide) (by decide) (by decide)⟩

/-- C8: Chunking is a performance parameter only: for a chunk size
below the record count and one above it, the loader produces the same
final table state and the same submitted count; the number of storage
round-trips is one per full chunk plus one for the final partial chunk
(in particular a single round-trip when the chunk size exceeds the
record count). -/
theorem C8_chunking_transparency (rowOk : Record → Bool) (file : CsvFile) (cols : List String)
    (pk : String) (times : Nat → Nat) (tbl : Table) (clock : Nat) (l : List TableRow)
    (c1 c2 : Nat)
    (hc1 : 1 ≤ c1) (hsmall : c1 < file.rows.length) (hbig : file.rows.length < c2)
    (hp : parseAll file.header cols times clock file.rows = some l)
    (hok : ∀ r ∈ l, rowOk r.data = true) :
    load_table rowOk c1 file cols pk times tbl clock =
      (LoadOut.ok file.rows.length
         (file.rows.length / c1 + (if file.rows.length % c1 = 0 then 0 else 1)),
       applyRecs (colIndex pk cols) tbl l, clock + file.rows.length) ∧
    load_table rowOk c2 file cols pk times tbl clock =
      (LoadOut.ok file.rows.length 1,
       applyRecs (colIndex pk cols) tbl l, clock + file.rows.length) := by
  have hlen := parseAll_length file.header cols times file.rows clock l hp
  have hc2 : 1 ≤ c2 := by omega
  have h1 := loadTableGo_ok rowOk (colIndex pk cols) c1 file.header cols times hc1
    file.rows [] tbl 0 clock 0 l (by simpa using hc1) hp (by simpa using hok)
  have h2 := loadTableGo_ok rowOk (colIndex pk cols) c2 file.header cols times hc2
    file.rows [] tbl 0 clock 0 l (by simpa using hc2) hp (by simpa using hok)
  have hpt2 : padTrips l.length c2 = 1 := padTrips_small _ _ (by omega) (by omega)
  constructor
  · simp only [load_table, h1, List.nil_append]
    simp [hlen, padTrips]
  · simp only [load_table, h2, List.nil_append]
    simp [hlen, hpt2, hlen ▸ hpt2]

/-- Witness for C8: two records, chunk sizes 1 and 5. -/
theorem C8_chunking_transparency_witness :
    (1 ≤ 1) ∧
    (load_table (fun _ => true) 1 wTwoFile ["id", "v"] "id" (fun n => n) [] 0 =
      (LoadOut.ok wTwoFile.rows.length
         (wTwoFile.rows.length / 1 + (if wTwoFile.rows.length % 1 = 0 then 0 else 1)),
       applyRecs (colIndex "id" ["id", "v"]) [] wTwoParsed, 0 + wTwoFile.rows.length) ∧
    load_table (fun _ => true) 5 wTwoFile ["id", "v"] "id" (fun n => n) [] 0 =
      (LoadOut.ok wTwoFile.rows.length 1,
       applyRecs (colIndex "id" ["id", "v"]) [] wTwoParsed, 0 + wTwoFile.rows.length)) :=
  ⟨by decide,
   C8_chunking_transparency (fun _ => true) wTwoFile ["id", "v"] "id" (fun n => n) [] 0
     wTwoParsed 1 5 (by decide) (by decide) (by decide) (by decide) (by decide)⟩

/-- C2 counterexample: A record whose column is absent from the CSV
header — the record's mapping is missing a declared column — does not
get a default value: the loader raises a `KeyError` for that column,
failing the load. -/
theorem C2_counterexample :
    (load_table (fun _ => true) 1000 csvProductsBad wCols "id" (fun n => n) [] 0).1 =
      LoadOut.keyErr "name" := by
  decide

/-- C2 amended: When every declared column is present in the CSV
header, a record row missing trailing values parses without error and
every absent value — in particular the one at the column of interest —
is the `csv.DictReader` default `none` (SQL NULL). -/
theorem C2_missing_value_defaults (cols raw : List String) (c : String)
    (hnd : cols.Nodup) (hc : c ∈ cols) (hshort : raw.length ≤ colIndex c cols) :
    rowVals cols raw cols = Except.ok (cols.map (fun x => raw.get? (colIndex x cols))) ∧
    (cols.map (fun x => raw.get? (colIndex x cols))).get? (colIndex c cols) = some none := by
  constructor
  · exact rowVals_all cols raw (fun x => raw.get? (colIndex x cols)) cols
      (fun x hx => dictGet_nodup cols raw x hnd hx)
  · rw [List.get?_map, colIndex_get c cols hc]
    simp only [Option.map_some']
    exact congrArg some (List.get?_eq_none.mpr hshort)

/-- Witness for the amended C2: the products columns with a one-value
row; the `name` value defaults to `none`. -/
theorem C2_missing_value_defaults_witness :
    (wCols.Nodup ∧ "name" ∈ wCols ∧
      (["1"] : List String).length ≤ colIndex "name" wCols) ∧
    (rowVals wCols ["1"] wCols =
        Except.ok (wCols.map (fun x => (["1"] : List String).get? (colIndex x wCols))) ∧
      (wCols.map (fun x => (["1"] : List String).get? (colIndex x wCols))).get?
          (colIndex "name" wCols) = some none) :=
  ⟨⟨by decide, by decide, by decide⟩,
   C2_missing_value_defaults wCols ["1"] "name" (by decide) (by decide) (by decide)⟩

/-- C10: The ingestion timestamp is captured per record at read time:
the i-th record read gets the (clock+i)-th time sample, so with a
monotone clock a record read later never carries an earlier timestamp;
and one concrete attempt writes two rows with distinct timestamps. -/
theorem C10_per_record_timestamps (header cols : List String) (times : Nat → Nat)
    (clock : Nat) (rows : List (List String)) (l : List TableRow)
    (hp : parseAll header cols times clock rows = some l)
    (hmono : Monotone times) :
    (∀ i, (hi : i < l.length) → (l.get ⟨i, hi⟩).ingestedAt = times (clock + i)) ∧
    (∀ i j, (hi : i < l.length) → (hj : j < l.length) → i ≤ j →
        (l.get ⟨i, hi⟩).ingestedAt ≤ (l.get ⟨j, hj⟩).ingestedAt) ∧
    (load_table (fun _ => true) 1000 wTwoFile ["id", "v"] "id" (fun n => n) [] 0).2.1.map
        TableRow.ingestedAt = [0, 1] := by
  have hst := parseAll_stamp header cols times rows clock l hp
  refine ⟨hst, ?_, by decide⟩
  intro i j hi hj hij
  rw [hst i hi, hst j hj]
  exact hmono (by omega)

/-- Witness for C10 at the two-record file under the identity clock. -/
theorem C10_per_record_timestamps_witness :
    parseAll wTwoFile.header ["id", "v"] (fun n => n) 0 wTwoFile.rows = some wTwoParsed ∧
    ((∀ i, (hi : i < wTwoParsed.length) →
        (wTwoParsed.get ⟨i, hi⟩).ingestedAt = (0 + i)) ∧
      (∀ i j, (hi : i < wTwoParsed.length) → (hj : j < wTwoParsed.length) → i ≤ j →
        (wTwoParsed.get ⟨i, hi⟩).ingestedAt ≤ (wTwoParsed.get ⟨j, hj⟩).ingestedAt) ∧
      (load_table (fun _ => true) 1000 wTwoFile ["id", "v"] "id" (fun n => n) [] 0).2.1.map
        TableRow.ingestedAt = [0, 1]) :=
  ⟨by decide,
   C10_per_record_timestamps wTwoFile.header ["id", "v"] (fun n => n) 0 wTwoFile.rows
     wTwoParsed (by decide) (fun _ _ h => h)⟩

/-- C6: If the source of any configured dataset is absent, the
orchestrator fails before opening the unit of work: the durable state
is unchanged (no audit row, no table mutation) and a precondition
(file-not-found) error propagates to the caller. -/
theorem C6_missing_source_fail_fast (rowOk : String → Record → Bool) (chunk : Nat)
    (files : String → Option CsvFile) (times : Nat → Nat) (batchId loadDate : Nat) (db0 : DB)
    (cfg : FileCfg) (hcfg : cfg ∈ FILES) (hmiss : files cfg.filename = none) :
    (runMain rowOk chunk files times batchId loadDate db0).2 = db0 ∧
    ∃ t, (runMain rowOk chunk files times batchId loadDate db0).1 =
        Except.error (RunError.fileNotFound t) := by
  rcases checkFiles_error_of_missing files FILES cfg hcfg hmiss with ⟨t, ht⟩
  constructor
  · simp [runMain, ht]
  · exact ⟨t, by simp [runMain, ht]⟩

/-- Witness for C6: the products source is absent. -/
theorem C6_missing_source_fail_fast_witness :
    (⟨"public.products", "products.csv",
        ["id", "name", "category", "price", "supplier"], "id"⟩ : FileCfg) ∈ FILES ∧
    ((runMain allowAll 1000 filesNoProducts (fun n => n) 0 0 emptyDB).2 = emptyDB ∧
      ∃ t, (runMain allowAll 1000 filesNoProducts (fun n => n) 0 0 emptyDB).1 =
        Except.error (RunError.fileNotFound t)) :=
  ⟨by decide,
   C6_missing_source_fail_fast allowAll 1000 filesNoProducts (fun n => n) 0 0 emptyDB
     ⟨"public.products", "products.csv", ["id", "name", "category", "price", "supplier"], "id"⟩
     (by decide) (by decide)⟩

/-- C7: Every successful orchestrator run leaves exactly one audit
row for its batch identifier: status `succeeded`, a non-null finish
timestamp no earlier than the start timestamp, and a details payload
with one entry per configured dataset whose submitted-row count equals
the number of input records of that dataset. -/
theorem C7_audit_completeness (rowOk : String → Record → Bool) (chunk : Nat)
    (files : String → Option CsvFile) (times : Nat → Nat) (batchId loadDate : Nat)
    (db0 : DB) (b : Nat) (db1 : DB)
    (hrun : runMain rowOk chunk files times batchId loadDate db0 = (Except.ok b, db1))
    (hmono : Monotone times)
    (hfresh : ∀ r ∈ db0.audit, r.batchId ≠ batchId) :
    b = batchId ∧
    ∃ fin, times 0 ≤ fin ∧
      db1.audit.filter (fun r => decide (r.batchId = batchId)) =
        [⟨batchId, loadDate, times 0, some fin, "succeeded",
          Details.stats (FILES.map (fun cfg => (cfg.table, rowsCount files cfg)))⟩] := by
  simp only [runMain] at hrun
  cases hchk : checkFiles files FILES with
  | error t => rw [hchk] at hrun; exact absurd hrun (by simp)
  | ok u =>
    simp only [hchk] at hrun
    rw [audit_any_false db0.audit batchId hfresh] at hrun
    simp only [Bool.false_eq_true, if_false] at hrun
    cases hall : loadAll rowOk chunk files times FILES
        { db0 with audit :=
            db0.audit ++ [⟨batchId, loadDate, times 0, none, "running", Details.empty⟩] }
        1 [] with
    | ok db clock stats =>
      simp only [hall, Prod.mk.injEq, Except.ok.injEq] at hrun
      rcases loadAll_ok_stats rowOk chunk files times FILES _ 1 [] db clock stats hall with
        ⟨hstats, haudit⟩
      refine ⟨hrun.1.symm, times clock, hmono (Nat.zero_le clock), ?_⟩
      rw [← hrun.2]
      simp only [haudit]
      rw [hstats]
      simp only [List.nil_append]
      exact auditFinish_filter batchId loadDate (times 0) (times clock) "succeeded"
        (Details.stats (FILES.map (fun cfg => (cfg.table, rowsCount files cfg)))) db0.audit hfresh
    | pyErr msg db clock => simp only [hall] at hrun; exact absurd hrun (by simp)
    | sqlErr => simp only [hall] at hrun; exact absurd hrun (by simp)

/-- Witness for C7: a fully successful three-dataset run. -/
theorem C7_audit_completeness_witness :
    runMain allowAll 1000 filesAllOk (fun n => n) 0 0 emptyDB =
      (Except.ok 0, (runMain allowAll 1000 filesAllOk (fun n => n) 0 0 emptyDB).2) ∧
    ((0 : Nat) = 0 ∧
      ∃ fin, 0 ≤ fin ∧
        (runMain allowAll 1000 filesAllOk (fun n => n) 0 0 emptyDB).2.audit.filter
            (fun r => decide (r.batchId = 0)) =
          [⟨0, 0, 0, some fin, "succeeded",
            Details.stats (FILES.map (fun cfg => (cfg.table, rowsCount filesAllOk cfg)))⟩]) :=
  ⟨rfl,
   C7_audit_completeness allowAll 1000 filesAllOk (fun n => n) 0 0 emptyDB 0 _ rfl
     (fun _ _ h => h) (by simp [emptyDB])⟩

/-- C1 counterexample: A malformed record in the products dataset
fails the run after the customers dataset loaded; the failed audit row
is committed — but so is the customers row read in the same attempt,
refuting the claim that zero rows of the attempt reach a durable
table. -/
theorem C1_counterexample :
    (runMain allowAll 1000 filesBadProducts (fun n => n) 0 0 emptyDB).1 =
      Except.error (RunError.pyError "name") ∧
    (runMain allowAll 1000 filesBadProducts (fun n => n) 0 0 emptyDB).2.customers =
      [⟨[some "1", some "Ana", some "ana@example.com", some "2020-01-01", some "PT"], 1⟩] :=
  ⟨rfl, rfl⟩

/-- C1 amended: When a Python-side failure (such as a record with a
missing declared column) interrupts the dataset loop, the `except`
branch still commits: afterwards exactly one audit row for the batch
identifier exists, with status `failed`, a non-null finish timestamp
and the error description — but the row mutations issued before the
failure are committed along with it rather than discarded (see the
counterexample), and a database-side failure leaves no audit row at
all. -/
theorem C1_failed_audit_row (rowOk : String → Record → Bool) (chunk : Nat)
    (files : String → Option CsvFile) (times : Nat → Nat) (batchId loadDate : Nat)
    (db0 : DB) (msg : String) (db1 : DB)
    (hrun : runMain rowOk chunk files times batchId loadDate db0 =
      (Except.error (RunError.pyError msg), db1))
    (hfresh : ∀ r ∈ db0.audit, r.batchId ≠ batchId) :
    ∃ fin, db1.audit.filter (fun r => decide (r.batchId = batchId)) =
      [⟨batchId, loadDate, times 0, some fin, "failed", Details.err msg⟩] := by
  simp only [runMain] at hrun
  cases hchk : checkFiles files FILES with
  | error t => rw [hchk] at hrun; exact absurd hrun (by simp)
  | ok u =>
    simp only [hchk] at hrun
    rw [audit_any_false db0.audit batchId hfresh] at hrun
    simp only [Bool.false_eq_true, if_false] at hrun
    cases hall : loadAll rowOk chunk files times FILES
        { db0 with audit :=
            db0.audit ++ [⟨batchId, loadDate, times 0, none, "running", Details.empty⟩] }
        1 [] with
    | ok db clock stats => simp only [hall] at hrun; exact absurd hrun (by simp)
    | pyErr msg0 db clock =>
      simp only [hall, Prod.mk.injEq, Except.error.injEq, RunError.pyError.injEq] at hrun
      have haudit := loadAll_pyErr_audit rowOk chunk files times FILES _ 1 [] msg0 db clock hall
      refine ⟨times clock, ?_⟩
      rw [← hrun.2]
      simp only [haudit, ← hrun.1]
      exact auditFinish_filter batchId loadDate (times 0) (times clock) "failed"
        (Details.err msg0) db0.audit hfresh
    | sqlErr => simp only [hall] at hrun; exact absurd hrun (by simp)

/-- Witness for the amended C1 at the malformed-products input. -/
theorem C1_failed_audit_row_witness :
    runMain allowAll 1000 filesBadProducts (fun n => n) 0 0 emptyDB =
      (Except.error (RunError.pyError "name"),
       (runMain allowAll 1000 filesBadProducts (fun n => n) 0 0 emptyDB).2) ∧
    ∃ fin, (runMain allowAll 1000 filesBadProducts (fun n => n) 0 0 emptyDB).2.audit.filter
        (fun r => decide (r.batchId = 0)) =
      [⟨0, 0, 0, some fin, "failed", Details.err "name"⟩] :=
  ⟨rfl,
   C1_failed_audit_row allowAll 1000 filesBadProducts (fun n => n) 0 0 emptyDB "name" _
     rfl (by simp [emptyDB])⟩

/-- C3 counterexample: A malformed record (missing declared
columns) in the products file fails the attempt, yet the two customers
rows read earlier in the same attempt are durably applied: the load is
not all-or-nothing. -/
theorem C3_counterexample :
    (runMain allowAll 1000 filesBadProducts2 (fun n => n) 7 0 emptyDB).1 =
      Except.error (RunError.pyError "name") ∧
    ((runMain allowAll 1000 filesBadProducts2 (fun n => n) 7 0 emptyDB).2.customers).length = 2 :=
  ⟨rfl, rfl⟩

/-- C3 amended: A malformed record still fails the whole attempt —
a successful run certifies that every record of every configured
dataset parsed with all declared columns present and was accepted by
the database, so no record is ever silently skipped — but mutations
issued before the failure can be durably applied (see the
counterexample). -/
theorem C3_no_silent_skip (rowOk : String → Record → Bool) (chunk : Nat)
    (files : String → Option CsvFile) (times : Nat → Nat) (batchId loadDate : Nat)
    (db0 : DB) (b : Nat) (db1 : DB)
    (hrun : runMain rowOk chunk files times batchId loadDate db0 = (Except.ok b, db1)) :
    ∀ cfg ∈ FILES, ∃ file, files cfg.filename = some file ∧
      ∀ raw ∈ file.rows, ∃ vals, rowVals file.header raw cfg.cols = Except.ok vals ∧
        rowOk cfg.table vals = true := by
  simp only [runMain] at hrun
  cases hchk : checkFiles files FILES with
  | error t => rw [hchk] at hrun; exact absurd hrun (by simp)
  | ok u =>
    simp only [hchk] at hrun
    by_cases hdup : db0.audit.any (fun r => decide (r.batchId = batchId)) = true
    · rw [hdup] at hrun
      simp only [if_true] at hrun
      exact absurd hrun (by simp)
    · rw [Bool.not_eq_true] at hdup
      rw [hdup] at hrun
      simp only [Bool.false_eq_true, if_false] at hrun
      cases hall : loadAll rowOk chunk files times FILES
          { db0 with audit :=
              db0.audit ++ [⟨batchId, loadDate, times 0, none, "running", Details.empty⟩] }
          1 [] with
      | ok db clock stats =>
        intro cfg hcfg
        rcases loadAll_ok_wellformed rowOk chunk files times FILES _ 1 [] db clock stats hall
            cfg hcfg with ⟨file, hf, c, l, hp, hok⟩
        refine ⟨file, hf, ?_⟩
        intro raw hraw
        rcases parseAll_mem file.header cfg.cols times file.rows c l hp raw hraw with
          ⟨r, hrl, hrv⟩
        exact ⟨r.data, hrv, hok r hrl⟩
      | pyErr msg db clock => simp only [hall] at hrun; exact absurd hrun (by simp)
      | sqlErr => simp only [hall] at hrun; exact absurd hrun (by simp)

/-- Witness for the amended C3: the all-well-formed run certifies every
record of every dataset. -/
theorem C3_no_silent_skip_witness :
    runMain allowAll 1000 filesAllOk (fun n => n) 0 0 emptyDB =
      (Except.ok 0, (runMain allowAll 1000 filesAllOk (fun n => n) 0 0 emptyDB).2) ∧
    ∀ cfg ∈ FILES, ∃ file, filesAllOk cfg.filename = some file ∧
      ∀ raw ∈ file.rows, ∃ vals, rowVals file.header raw cfg.cols = Except.ok vals ∧
        allowAll cfg.table vals = true :=
  ⟨rfl,
   C3_no_silent_skip allowAll 1000 filesAllOk (fun n => n) 0 0 emptyDB 0 _ rfl⟩
